import Mathlib

/-!
Verification of the simulstream incremental reconciliation algorithm, the
speech-processor session pool, the websocket control-message handling and the
metric tokenization helper, as a shallow embedding of the Python sources.

Strings are modelled as `List Char`, the opaque tokenizer function
`convert_tokens_to_string` as an arbitrary parameter `detok`, and the float
matching threshold as a rational number.
-/

namespace Simulstream

/-- Length of the longest common run starting at the heads of the two lists. -/
def matchLen : List Char → List Char → Nat
  | x :: xs, y :: ys => if x = y then matchLen xs ys + 1 else 0
  | _, _ => 0

theorem matchLen_le_left : ∀ xs ys : List Char, matchLen xs ys ≤ xs.length := by
  intro xs
  induction xs with
  | nil => intro ys; cases ys <;> simp [matchLen]
  | cons x xs ih =>
    intro ys
    cases ys with
    | nil => simp [matchLen]
    | cons y ys =>
      by_cases h : x = y
      · simp only [matchLen, if_pos h, List.length_cons]
        exact Nat.succ_le_succ (ih ys)
      · simp [matchLen, if_neg h]

theorem matchLen_le_right : ∀ xs ys : List Char, matchLen xs ys ≤ ys.length := by
  intro xs
  induction xs with
  | nil => intro ys; cases ys <;> simp [matchLen]
  | cons x xs ih =>
    intro ys
    cases ys with
    | nil => simp [matchLen]
    | cons y ys =>
      by_cases h : x = y
      · simp only [matchLen, if_pos h, List.length_cons]
        exact Nat.succ_le_succ (ih ys)
      · simp [matchLen, if_neg h]

theorem matchLen_take : ∀ xs ys : List Char,
    xs.take (matchLen xs ys) = ys.take (matchLen xs ys) := by
  intro xs
  induction xs with
  | nil => intro ys; cases ys <;> simp [matchLen]
  | cons x xs ih =>
    intro ys
    cases ys with
    | nil => simp [matchLen]
    | cons y ys =>
      by_cases h : x = y
      · subst h
        have hm : matchLen (x :: xs) (x :: ys) = matchLen xs ys + 1 := by simp [matchLen]
        rw [hm, List.take_succ_cons, List.take_succ_cons, ih ys]
      · simp [matchLen, if_neg h]

theorem le_matchLen : ∀ (k : Nat) (xs ys : List Char), k ≤ xs.length →
    xs.take k = ys.take k → k ≤ matchLen xs ys := by
  intro k
  induction k with
  | zero => intro xs ys _ _; exact Nat.zero_le _
  | succ k ih =>
    intro xs ys hk ht
    cases xs with
    | nil => simp at hk
    | cons x xs =>
      cases ys with
      | nil => simp at ht
      | cons y ys =>
        simp only [List.take_succ_cons, List.cons.injEq] at ht
        obtain ⟨rfl, ht'⟩ := ht
        simp only [List.length_cons, Nat.succ_le_succ_iff] at hk
        simp only [matchLen, if_pos rfl]
        exact Nat.succ_le_succ (ih xs ys hk ht')

theorem matchLen_append : ∀ (xs s : List Char), matchLen xs (xs ++ s) = xs.length := by
  intro xs s
  have h1 : matchLen xs (xs ++ s) ≤ xs.length := matchLen_le_left _ _
  have h2 : xs.length ≤ matchLen xs (xs ++ s) := by
    apply le_matchLen _ _ _ (le_refl _)
    simp [List.take_append]
  omega

/-- Maximum of `f` over `0, …, n-1` (`0` when `n = 0`). -/
def maxBelow (f : Nat → Nat) : Nat → Nat
  | 0 => 0
  | n + 1 => max (maxBelow f n) (f n)

theorem le_maxBelow (f : Nat → Nat) : ∀ {n y : Nat}, y < n → f y ≤ maxBelow f n := by
  intro n
  induction n with
  | zero => intro y hy; omega
  | succ n ih =>
    intro y hy
    rcases Nat.lt_succ_iff_lt_or_eq.mp hy with h | h
    · exact le_trans (ih h) (le_max_left _ _)
    · subst h; exact le_max_right _ _

theorem maxBelow_le (f : Nat → Nat) {c : Nat} : ∀ {n : Nat},
    (∀ y, y < n → f y ≤ c) → maxBelow f n ≤ c := by
  intro n
  induction n with
  | zero => intro _; simp [maxBelow]
  | succ n ih =>
    intro h
    simp only [maxBelow, max_le_iff]
    exact ⟨ih fun y hy => h y (Nat.lt_succ_of_lt hy), h n (Nat.lt_succ_self n)⟩

theorem maxBelow_attained (f : Nat → Nat) : ∀ {n : Nat}, 0 < n →
    ∃ y, y < n ∧ f y = maxBelow f n := by
  intro n
  induction n with
  | zero => intro h; omega
  | succ n ih =>
    intro _
    rcases Nat.eq_zero_or_pos n with h | h
    · subst h
      exact ⟨0, Nat.zero_lt_one, by simp [maxBelow]⟩
    · obtain ⟨y, hy, hfy⟩ := ih h
      rcases le_total (f n) (maxBelow f n) with hle | hle
      · exact ⟨y, Nat.lt_succ_of_lt hy, by simp [maxBelow, max_eq_left hle, hfy]⟩
      · exact ⟨n, Nat.lt_succ_self n, by simp [maxBelow, max_eq_right hle]⟩

/-- Smallest `y < n` with `p y`, if any. -/
def findBelow (p : Nat → Bool) : Nat → Option Nat
  | 0 => none
  | n + 1 =>
    match findBelow p n with
    | some x => some x
    | none => if p n then some n else none

theorem findBelow_none (p : Nat → Bool) : ∀ {n : Nat}, findBelow p n = none →
    ∀ y, y < n → p y = false := by
  intro n
  induction n with
  | zero => intro _ y hy; omega
  | succ n ih =>
    intro h y hy
    simp only [findBelow] at h
    rcases hfb : findBelow p n with _ | x
    · rw [hfb] at h
      simp only at h
      rcases Nat.lt_succ_iff_lt_or_eq.mp hy with h' | h'
      · exact ih hfb y h'
      · subst h'
        by_cases hp : p y
        · rw [if_pos hp] at h; exact absurd h (by simp)
        · simpa using hp
    · rw [hfb] at h; exact absurd h (by simp)

theorem findBelow_some (p : Nat → Bool) : ∀ {n x : Nat}, findBelow p n = some x →
    x < n ∧ p x = true ∧ ∀ y, y < x → p y = false := by
  intro n
  induction n with
  | zero => intro x h; simp [findBelow] at h
  | succ n ih =>
    intro x h
    simp only [findBelow] at h
    rcases hfb : findBelow p n with _ | x'
    · rw [hfb] at h
      simp only at h
      by_cases hp : p n
      · rw [if_pos hp] at h
        obtain rfl : n = x := by simpa using h
        exact ⟨Nat.lt_succ_self _, hp, findBelow_none p hfb⟩
      · rw [if_neg hp] at h; exact absurd h (by simp)
    · rw [hfb] at h
      obtain rfl : x' = x := by simpa using h
      obtain ⟨h1, h2, h3⟩ := ih hfb
      exact ⟨Nat.lt_succ_of_lt h1, h2, h3⟩

theorem findBelow_isSome (p : Nat → Bool) {n y : Nat} (hy : y < n) (hp : p y = true) :
    ∃ x, findBelow p n = some x := by
  rcases h : findBelow p n with _ | x
  · have := findBelow_none p h y hy
    rw [hp] at this
    exact absurd this (by simp)
  · exact ⟨x, rfl⟩

/-- A matching block as difflib reports it: start offset in the first string,
start offset in the second string, and size. -/
structure LMatch where
  a : Nat
  b : Nat
  size : Nat
deriving DecidableEq

/-- Number of encoded candidate start pairs for the longest-match search. -/
def pairCount (a b : List Char) : Nat := (a.length + 1) * (b.length + 1)

/-- Length of the common run starting at the pair of offsets encoded by `n`
(first offset `n / (|b|+1)`, second offset `n % (|b|+1)`; numeric order on the
codes is lexicographic order on the offset pairs). -/
def pairLen (a b : List Char) (n : Nat) : Nat :=
  matchLen (a.drop (n / (b.length + 1))) (b.drop (n % (b.length + 1)))

/-- Length of the longest contiguous common substring of the two strings. -/
def lcsSize (a b : List Char) : Nat := maxBelow (pairLen a b) (pairCount a b)

/-- Model of `difflib.SequenceMatcher(None, a, b).find_longest_match()`
WITHOUT the autojunk heuristic: the longest matching block, ties broken by the
earliest start in the first string `a`, then the earliest start in the second
string `b`.  This is the real matcher's behaviour exactly when the second
string has fewer than 200 characters (below that bound autojunk is inert); for
longer second strings autojunk purges characters that are popular in `b` and
the real matcher can return a different — even non-maximal — block, so every
theorem whose truth depends on the matcher's placement or maximality carries
the hypothesis `b.length < 200`. -/
def find_longest_match (a b : List Char) : LMatch :=
  match findBelow (fun n => pairLen a b n == lcsSize a b) (pairCount a b) with
  | some n => ⟨n / (b.length + 1), n % (b.length + 1), lcsSize a b⟩
  | none => ⟨0, 0, 0⟩

theorem flm_exists (a b : List Char) :
    ∃ n, findBelow (fun n => pairLen a b n == lcsSize a b) (pairCount a b) = some n ∧
      find_longest_match a b = ⟨n / (b.length + 1), n % (b.length + 1), lcsSize a b⟩ := by
  have hpos : 0 < pairCount a b := Nat.mul_pos (Nat.succ_pos _) (Nat.succ_pos _)
  obtain ⟨y, hy, hfy⟩ := maxBelow_attained (pairLen a b) hpos
  obtain ⟨x, hx⟩ := findBelow_isSome (fun n => pairLen a b n == lcsSize a b) hy
    (by simpa [lcsSize] using hfy)
  exact ⟨x, hx, by simp [find_longest_match, hx]⟩

theorem flm_size (a b : List Char) : (find_longest_match a b).size = lcsSize a b := by
  obtain ⟨n, _, heq⟩ := flm_exists a b
  rw [heq]

theorem flm_len_at (a b : List Char) :
    matchLen (a.drop (find_longest_match a b).a) (b.drop (find_longest_match a b).b)
      = (find_longest_match a b).size := by
  obtain ⟨n, hfb, heq⟩ := flm_exists a b
  have hp := (findBelow_some _ hfb).2.1
  rw [heq]
  simpa [pairLen] using hp

theorem pair_div {B i j : Nat} (hj : j < B + 1) : (i * (B + 1) + j) / (B + 1) = i := by
  rw [Nat.mul_comm, Nat.mul_add_div (Nat.succ_pos B), Nat.div_eq_of_lt hj]
  omega

theorem pair_mod {B i j : Nat} (hj : j < B + 1) : (i * (B + 1) + j) % (B + 1) = j := by
  rw [Nat.mul_comm, Nat.mul_add_mod, Nat.mod_eq_of_lt hj]

theorem flm_a_le (a b : List Char) : (find_longest_match a b).a ≤ a.length := by
  obtain ⟨n, hfb, heq⟩ := flm_exists a b
  have hn := (findBelow_some _ hfb).1
  have ha : (find_longest_match a b).a = n / (b.length + 1) := by rw [heq]
  have hdiv : n / (b.length + 1) < a.length + 1 :=
    Nat.div_lt_of_lt_mul (by simpa [pairCount, Nat.mul_comm] using hn)
  omega

theorem flm_b_le (a b : List Char) : (find_longest_match a b).b ≤ b.length := by
  obtain ⟨n, hfb, heq⟩ := flm_exists a b
  have hb : (find_longest_match a b).b = n % (b.length + 1) := by rw [heq]
  have hmod : n % (b.length + 1) < b.length + 1 := Nat.mod_lt _ (Nat.succ_pos _)
  omega

theorem flm_a_size_le (a b : List Char) :
    (find_longest_match a b).a + (find_longest_match a b).size ≤ a.length := by
  have h := flm_len_at a b
  have h2 : (find_longest_match a b).size ≤ (a.drop (find_longest_match a b).a).length := by
    rw [← h]; exact matchLen_le_left _ _
  have h3 := flm_a_le a b
  simp only [List.length_drop] at h2
  omega

theorem flm_b_size_le (a b : List Char) :
    (find_longest_match a b).b + (find_longest_match a b).size ≤ b.length := by
  have h := flm_len_at a b
  have h2 : (find_longest_match a b).size ≤ (b.drop (find_longest_match a b).b).length := by
    rw [← h]; exact matchLen_le_right _ _
  have h3 := flm_b_le a b
  simp only [List.length_drop] at h2
  omega

theorem flm_common (a b : List Char) :
    (a.drop (find_longest_match a b).a).take (find_longest_match a b).size
      = (b.drop (find_longest_match a b).b).take (find_longest_match a b).size := by
  rw [← flm_len_at a b]
  exact matchLen_take _ _

/-- Every common substring is at most as long as the block the matcher found. -/
theorem flm_max (a b : List Char) {i j k : Nat} (hi : i + k ≤ a.length)
    (hj : j + k ≤ b.length) (hc : (a.drop i).take k = (b.drop j).take k) :
    k ≤ (find_longest_match a b).size := by
  have hk : k ≤ matchLen (a.drop i) (b.drop j) := by
    apply le_matchLen _ _ _ _ hc
    simp only [List.length_drop]
    omega
  have hjb : j < b.length + 1 := by omega
  have hcode : i * (b.length + 1) + j < pairCount a b := by
    have h1 : i * (b.length + 1) + j < (i + 1) * (b.length + 1) := by
      rw [Nat.add_mul, Nat.one_mul]
      omega
    have h2 : (i + 1) * (b.length + 1) ≤ (a.length + 1) * (b.length + 1) := by
      apply Nat.mul_le_mul_right
      omega
    calc i * (b.length + 1) + j < (i + 1) * (b.length + 1) := h1
      _ ≤ (a.length + 1) * (b.length + 1) := h2
  have hdecode : pairLen a b (i * (b.length + 1) + j) = matchLen (a.drop i) (b.drop j) := by
    unfold pairLen
    rw [pair_div hjb, pair_mod hjb]
  have := le_maxBelow (pairLen a b) hcode
  rw [hdecode] at this
  rw [flm_size]
  exact le_trans hk this

/-- Tie-breaking: no common run at a lexicographically earlier offset pair
reaches the chosen size. -/
theorem flm_first (a b : List Char) {i j : Nat} (hi : i ≤ a.length) (hj : j ≤ b.length)
    (hlt : i < (find_longest_match a b).a ∨
      (i = (find_longest_match a b).a ∧ j < (find_longest_match a b).b)) :
    matchLen (a.drop i) (b.drop j) < (find_longest_match a b).size := by
  obtain ⟨n, hfb, heq⟩ := flm_exists a b
  obtain ⟨hn, _, hmin⟩ := findBelow_some _ hfb
  have ha : (find_longest_match a b).a = n / (b.length + 1) := by rw [heq]
  have hb : (find_longest_match a b).b = n % (b.length + 1) := by rw [heq]
  rw [ha, hb] at hlt
  have hjb : j < b.length + 1 := by omega
  have hcodelt : i * (b.length + 1) + j < n := by
    rcases hlt with hlt | ⟨rfl, hlt⟩
    · have h1 : i * (b.length + 1) + j < (i + 1) * (b.length + 1) := by
        rw [Nat.succ_mul]
        exact Nat.add_lt_add_left hjb _
      have h2 : (i + 1) * (b.length + 1) ≤ (n / (b.length + 1)) * (b.length + 1) :=
        Nat.mul_le_mul_right _ (by omega)
      exact lt_of_lt_of_le h1 (le_trans h2 (Nat.div_mul_le_self _ _))
    · have hdm := Nat.div_add_mod n (b.length + 1)
      calc n / (b.length + 1) * (b.length + 1) + j
          < n / (b.length + 1) * (b.length + 1) + n % (b.length + 1) :=
            Nat.add_lt_add_left hlt _
        _ = n := by rw [Nat.mul_comm]; exact hdm
  have hne := hmin _ hcodelt
  simp only [beq_eq_false_iff_ne, ne_eq] at hne
  have hcode : i * (b.length + 1) + j < pairCount a b := lt_trans hcodelt hn
  have hle := le_maxBelow (pairLen a b) hcode
  have hdecode : pairLen a b (i * (b.length + 1) + j) = matchLen (a.drop i) (b.drop j) := by
    unfold pairLen
    rw [pair_div hjb, pair_mod hjb]
  rw [hdecode] at hne hle
  rw [flm_size]
  have hlcs : lcsSize a b = maxBelow (pairLen a b) (pairCount a b) := rfl
  omega

/-- When the second string extends the first, the matcher picks the whole first
string at offsets `(0, 0)`. -/
theorem flm_append (xs s : List Char) :
    find_longest_match xs (xs ++ s) = ⟨0, 0, xs.length⟩ := by
  have hlcs : lcsSize xs (xs ++ s) = xs.length := by
    apply le_antisymm
    · apply maxBelow_le
      intro y _
      exact le_trans (matchLen_le_left _ _) (by simp [List.length_drop])
    · have h0 : pairLen xs (xs ++ s) 0 = xs.length := by
        simp [pairLen, matchLen_append]
      have hpos : 0 < pairCount xs (xs ++ s) := Nat.mul_pos (Nat.succ_pos _) (Nat.succ_pos _)
      have := le_maxBelow (pairLen xs (xs ++ s)) hpos
      rw [h0] at this
      exact this
  have hp0 : (fun n => pairLen xs (xs ++ s) n == lcsSize xs (xs ++ s)) 0 = true := by
    simp [pairLen, matchLen_append, hlcs]
  have hpos : 0 < pairCount xs (xs ++ s) := Nat.mul_pos (Nat.succ_pos _) (Nat.succ_pos _)
  obtain ⟨x, hx⟩ :=
    findBelow_isSome (fun n => pairLen xs (xs ++ s) n == lcsSize xs (xs ++ s)) hpos hp0
  obtain ⟨_, _, hmin⟩ := findBelow_some _ hx
  have hp0' : (pairLen xs (xs ++ s) 0 == lcsSize xs (xs ++ s)) = true := hp0
  have hx0 : x = 0 := by
    by_contra hne
    have hfalse := hmin 0 (Nat.pos_of_ne_zero hne)
    rw [hp0'] at hfalse
    exact absurd hfalse (by simp)
  subst hx0
  unfold find_longest_match
  rw [hx, hlcs]
  simp [Nat.zero_div, Nat.zero_mod]

/-- The per-step delta (`IncrementalOutput` in the source): new and deleted
tokens together with their string renderings. -/
structure IncrementalOutput where
  new_tokens : List (List Char)
  new_string : List Char
  deleted_tokens : List (List Char)
  deleted_string : List Char
deriving DecidableEq

/-- Loop of `HFSlidingWindowRetranslator.get_ending_tokens_for_string`:
`i` counts how many trailing tokens are currently rendered; on the first `i`
whose rendering the candidate no longer ends with, the Python slice
`tokens[-i+1:]` is returned, which for `i = 1` is `tokens[0:]`, the full list.
The fuel argument only bounds the recursion; every call keeps
`tokens.length - i ≤ fuel`, so the fuel-exhausted case coincides with the
loop-exit case `i ≥ tokens.length`. -/
def getEndingTokensGo (detok : List (List Char) → List Char) (s : List Char)
    (tokens : List (List Char)) : Nat → Nat → List (List Char)
  | 0, _ => tokens
  | fuel + 1, i =>
    if i < tokens.length then
      if detok (tokens.drop (tokens.length - i)) <:+ s then
        getEndingTokensGo detok s tokens fuel (i + 1)
      else if i = 1 then tokens else tokens.drop (tokens.length - (i - 1))
    else tokens

/-- `HFSlidingWindowRetranslator.get_ending_tokens_for_string`. -/
def get_ending_tokens_for_string (detok : List (List Char) → List Char) (s : List Char)
    (tokens : List (List Char)) : List (List Char) :=
  getEndingTokensGo detok s tokens tokens.length 1

/-- `HFSlidingWindowRetranslator._build_incremental_outputs`.  `detok` stands
for `processor.tokenizer.convert_tokens_to_string`, `thr` for the float
`matching_threshold` (modelled as a rational), `text_history` for
`self.text_history`. -/
def build_incremental_outputs (detok : List (List Char) → List Char) (thr : ℚ)
    (text_history : Option (List (List Char))) (generated_tokens : List (List Char)) :
    IncrementalOutput :=
  let new_string := detok generated_tokens
  match text_history with
  | none => ⟨generated_tokens, new_string, [], []⟩
  | some h =>
    if h.length = 0 then ⟨generated_tokens, new_string, [], []⟩
    else
      let previous_string := detok h
      let m := find_longest_match previous_string new_string
      if thr * (new_string.length : ℚ) ≤ (m.size : ℚ) then
        let ns := new_string.drop (m.b + m.size)
        let ds := previous_string.drop (m.a + m.size)
        ⟨if ns = [] then [] else get_ending_tokens_for_string detok ns generated_tokens,
         ns,
         if ds = [] then [] else get_ending_tokens_for_string detok ds h,
         ds⟩
      else ⟨generated_tokens, new_string, [], []⟩

theorem build_none (detok : List (List Char) → List Char) (thr : ℚ)
    (w : List (List Char)) :
    build_incremental_outputs detok thr none w = ⟨w, detok w, [], []⟩ := rfl

theorem build_some (detok : List (List Char) → List Char) (thr : ℚ)
    {h : List (List Char)} (hne : h ≠ []) (w : List (List Char)) :
    build_incremental_outputs detok thr (some h) w =
      (if thr * ((detok w).length : ℚ) ≤
          ((find_longest_match (detok h) (detok w)).size : ℚ) then
        ⟨if (detok w).drop ((find_longest_match (detok h) (detok w)).b +
              (find_longest_match (detok h) (detok w)).size) = [] then []
          else get_ending_tokens_for_string detok
            ((detok w).drop ((find_longest_match (detok h) (detok w)).b +
              (find_longest_match (detok h) (detok w)).size)) w,
         (detok w).drop ((find_longest_match (detok h) (detok w)).b +
           (find_longest_match (detok h) (detok w)).size),
         if (detok h).drop ((find_longest_match (detok h) (detok w)).a +
              (find_longest_match (detok h) (detok w)).size) = [] then []
          else get_ending_tokens_for_string detok
            ((detok h).drop ((find_longest_match (detok h) (detok w)).a +
              (find_longest_match (detok h) (detok w)).size)) h,
         (detok h).drop ((find_longest_match (detok h) (detok w)).a +
           (find_longest_match (detok h) (detok w)).size)⟩
       else ⟨w, detok w, [], []⟩) := by
  have hlen : ¬ h.length = 0 := by simpa using hne
  simp only [build_incremental_outputs, if_neg hlen]

/-- State carried across windows: `self.text_history` plus the transcript a
client reconstructs by applying the emitted deltas. -/
structure ReconState where
  text_history : Option (List (List Char))
  transcript : List Char
deriving DecidableEq

/-- Apply a delta to the running transcript: retract `deleted_string` as a
suffix, then append `new_string`. -/
def applyDelta (t : List Char) (o : IncrementalOutput) : List Char :=
  t.take (t.length - o.deleted_string.length) ++ o.new_string

/-- One full processing step: the Reconciler output followed by
`_update_text_history` (which stores the full generated token list). -/
def reconStep (detok : List (List Char) → List Char) (thr : ℚ)
    (st : ReconState) (w : List (List Char)) : ReconState :=
  ⟨some w, applyDelta st.transcript (build_incremental_outputs detok thr st.text_history w)⟩

/-- Feed a sequence of windows through the Reconciler, starting from an empty
history and transcript. -/
def runWindows (detok : List (List Char) → List Char) (thr : ℚ)
    (ws : List (List (List Char))) : ReconState :=
  ws.foldl (reconStep detok thr) ⟨none, []⟩

/-- The last element of `w0 :: rest`. -/
def lastWindow (w0 : List (List Char)) (rest : List (List (List Char))) :
    List (List Char) :=
  rest.foldl (fun _ w => w) w0

/-- Concrete detokenizer used for closed evaluations: plain concatenation. -/
def concatDetok (ts : List (List Char)) : List Char := ts.flatten

/-- Two consecutive windows whose new rendering is shorter than 200
characters (so difflib's autojunk heuristic is inert and the modelled matcher
is the real one), for which the match branch is taken and the text up to the
end of the match is unchanged between the previous and the new rendering. -/
def alignedPair (detok : List (List Char) → List Char) (thr : ℚ)
    (h w : List (List Char)) : Prop :=
  h ≠ [] ∧
  (detok w).length < 200 ∧
  thr * (((detok w).length : ℚ)) ≤
    (((find_longest_match (detok h) (detok w)).size : ℚ)) ∧
  (detok h).take ((find_longest_match (detok h) (detok w)).a +
      (find_longest_match (detok h) (detok w)).size) =
    (detok w).take ((find_longest_match (detok h) (detok w)).b +
      (find_longest_match (detok h) (detok w)).size)

theorem reconStep_aligned (detok : List (List Char) → List Char) (thr : ℚ)
    {h w : List (List Char)} (hp : alignedPair detok thr h w) :
    reconStep detok thr ⟨some h, detok h⟩ w = ⟨some w, detok w⟩ := by
  obtain ⟨hne, _, hthr, htake⟩ := hp
  unfold reconStep
  rw [build_some detok thr hne w]
  simp only [if_pos hthr]
  unfold applyDelta
  simp only
  congr 1
  have hms := flm_a_size_le (detok h) (detok w)
  have hlen : ((detok h).drop ((find_longest_match (detok h) (detok w)).a +
      (find_longest_match (detok h) (detok w)).size)).length =
      (detok h).length - ((find_longest_match (detok h) (detok w)).a +
        (find_longest_match (detok h) (detok w)).size) := List.length_drop _ _
  rw [hlen]
  have hsub : (detok h).length - ((detok h).length -
      ((find_longest_match (detok h) (detok w)).a +
        (find_longest_match (detok h) (detok w)).size)) =
      (find_longest_match (detok h) (detok w)).a +
        (find_longest_match (detok h) (detok w)).size := by omega
  rw [hsub, htake, List.take_append_drop]

theorem runAligned (detok : List (List Char) → List Char) (thr : ℚ) :
    ∀ (rest : List (List (List Char))) (h : List (List Char)),
      List.Chain (alignedPair detok thr) h rest →
      rest.foldl (reconStep detok thr) ⟨some h, detok h⟩ =
        ⟨some (lastWindow h rest), detok (lastWindow h rest)⟩ := by
  intro rest
  induction rest with
  | nil => intro h _; rfl
  | cons w rest ih =>
    intro h hchain
    cases hchain with
    | cons hpair hchain =>
      show rest.foldl (reconStep detok thr) (reconStep detok thr ⟨some h, detok h⟩ w) = _
      rw [reconStep_aligned detok thr hpair]
      exact ih w hchain

theorem getGo_ok (detok : List (List Char) → List Char) (s : List Char)
    (tokens : List (List Char)) : ∀ (fuel i : Nat),
    (∀ j, i ≤ j → j < tokens.length → detok (tokens.drop (tokens.length - j)) <:+ s) →
    getEndingTokensGo detok s tokens fuel i = tokens := by
  intro fuel
  induction fuel with
  | zero => intro i _; rfl
  | succ fuel ih =>
    intro i hok
    show (if i < tokens.length then _ else tokens) = tokens
    by_cases h : i < tokens.length
    · rw [if_pos h, if_pos (hok i le_rfl h)]
      exact ih (i + 1) (fun j hj hj2 => hok j (by omega) hj2)
    · rw [if_neg h]

theorem getGo_break (detok : List (List Char) → List Char) (s : List Char)
    (tokens : List (List Char)) : ∀ (fuel i0 i : Nat), i0 - i < fuel → 1 ≤ i → i ≤ i0 →
    i0 < tokens.length →
    ¬ (detok (tokens.drop (tokens.length - i0)) <:+ s) →
    (∀ j, i ≤ j → j < i0 → detok (tokens.drop (tokens.length - j)) <:+ s) →
    getEndingTokensGo detok s tokens fuel i =
      if i0 = 1 then tokens else tokens.drop (tokens.length - (i0 - 1)) := by
  intro fuel
  induction fuel with
  | zero => intro i0 i hfuel _ _ _ _ _; omega
  | succ fuel ih =>
    intro i0 i hfuel h1 hle hlt hbad hok
    by_cases heq : i = i0
    · subst heq
      show (if i < tokens.length then _ else tokens) = _
      rw [if_pos hlt, if_neg hbad]
    · have hilt : i < i0 := by omega
      show (if i < tokens.length then _ else tokens) = _
      rw [if_pos (by omega), if_pos (hok i le_rfl hilt)]
      exact ih i0 (i + 1) (by omega) (by omega) (by omega) hlt hbad
        (fun j hj hj2 => hok j (by omega) hj2)

/-- Modelled from the spec: a longest common substring chosen with ties broken
by earliest start in the second string (`newText`), then earliest start in the
first (`previousText`) — the tie order the specification states. -/
def specLongestMatch (a b : List Char) : LMatch :=
  match findBelow
      (fun n => matchLen (a.drop (n % (a.length + 1))) (b.drop (n / (a.length + 1)))
        == lcsSize a b)
      ((a.length + 1) * (b.length + 1)) with
  | some n => ⟨n % (a.length + 1), n / (a.length + 1), lcsSize a b⟩
  | none => ⟨0, 0, 0⟩

/-! ### Session pool (`SpeechProcessorSessionManager`)

Processing units are identified by naturals; `_sessions` and `_last_access`
are association lists with Python-dict lookup semantics; the FIFO `Queue` of
available units is a list popped at the head and pushed at the tail. -/

structure PoolState where
  sessions : List (Nat × Nat)
  last_access : List (Nat × Int)
  size : Nat
  ttl : Int
  available : List Nat
deriving DecidableEq

/-- Dict assignment `d[k] = v`: replace any existing binding of `k`. -/
def setKey (l : List (Nat × Int)) (k : Nat) (v : Int) : List (Nat × Int) :=
  (k, v) :: l.eraseP (fun p => p.1 == k)

/-- `SpeechProcessorSessionManager.get`; `none` models the `queue.Empty`
raised by `get_nowait` on an exhausted pool, which propagates before any of
the maps are touched. -/
def SMget (st : PoolState) (sid : Nat) (now : Int) : Option (PoolState × Nat) :=
  match st.sessions.lookup sid with
  | some u => some ({ st with last_access := setKey st.last_access sid now }, u)
  | none =>
    match st.available with
    | [] => none
    | u :: rest =>
      some ({ st with sessions := (sid, u) :: st.sessions,
                      available := rest,
                      last_access := setKey st.last_access sid now }, u)

/-- `SpeechProcessorSessionManager.close_session` (`clear()` does not affect a
unit's identity). -/
def SMclose (st : PoolState) (sid : Nat) : PoolState :=
  let st1 :=
    match st.sessions.lookup sid with
    | some u => { st with sessions := st.sessions.eraseP (fun p => p.1 == sid),
                          available := st.available ++ [u] }
    | none => st
  { st1 with last_access := st1.last_access.eraseP (fun p => p.1 == sid) }

/-- Ids collected by one `_cleanup` pass: sessions with no recorded access or
idle longer than the TTL. -/
def expiredSessions (st : PoolState) (now : Int) : List Nat :=
  (st.sessions.map Prod.fst).filter fun sid =>
    match st.last_access.lookup sid with
    | none => true
    | some t => decide (st.ttl < now - t)

/-- One reaper pass: collect the expired ids, then close each. -/
def SMcleanup (st : PoolState) (now : Int) : PoolState :=
  (expiredSessions st now).foldl SMclose st

inductive PoolOp where
  | get (sid : Nat) (now : Int)
  | close (sid : Nat)
  | cleanup (now : Int)

def applyPoolOp (st : PoolState) : PoolOp → PoolState
  | .get sid now =>
    match SMget st sid now with
    | some (st2, _) => st2
    | none => st
  | .close sid => SMclose st sid
  | .cleanup now => SMcleanup st now

/-- The constructor state: `n` pre-built units all available, no sessions. -/
def initPool (n : Nat) (ttl : Int) : PoolState := ⟨[], [], n, ttl, List.range n⟩

def runPool (n : Nat) (ttl : Int) (ops : List PoolOp) : PoolState :=
  ops.foldl applyPoolOp (initPool n ttl)

/-- All unit ids held by the pool: the available queue plus the unit of every
session record. -/
def poolUnits (st : PoolState) : List Nat := st.available ++ st.sessions.map Prod.snd

theorem lookup_eraseP_perm : ∀ (l : List (Nat × Nat)) (k u : Nat),
    l.lookup k = some u →
    (l.map Prod.snd).Perm (u :: (l.eraseP (fun p => p.1 == k)).map Prod.snd) := by
  intro l
  induction l with
  | nil => intro k u h; simp [List.lookup] at h
  | cons p t ih =>
    intro k u h
    obtain ⟨k', v⟩ := p
    by_cases hk : k = k'
    · subst hk
      have hv : v = u := by
        simpa [List.lookup] using h
      subst hv
      have he : List.eraseP (fun p => p.1 == k) ((k, v) :: t) = t := by
        simp [List.eraseP]
      rw [he]
      simp
    · have h' : t.lookup k = some u := by
        simpa [List.lookup, beq_false_of_ne hk] using h
      have hk' : ((k', v).1 == k) = false := by
        simp [Ne.symm hk]
      have he : List.eraseP (fun p => p.1 == k) ((k', v) :: t) =
          (k', v) :: t.eraseP (fun p => p.1 == k) := by
        simp [List.eraseP, hk']
      rw [he]
      simp only [List.map_cons]
      exact ((ih k u h').cons v).trans (List.Perm.swap u v _)

/-- The conservation invariant: the units in the pool are exactly the `n`
units built at construction, each in exactly one place. -/
def poolInv (n : Nat) (st : PoolState) : Prop := (poolUnits st).Perm (List.range n)

theorem poolInv_close {n : Nat} {st : PoolState} (hinv : poolInv n st) (sid : Nat) :
    poolInv n (SMclose st sid) := by
  unfold poolInv poolUnits SMclose
  rcases hl : st.sessions.lookup sid with _ | u
  · simpa [hl] using hinv
  · simp only [hl]
    have hperm := lookup_eraseP_perm st.sessions sid u hl
    refine List.Perm.trans ?_ hinv
    have hassoc : (st.available ++ [u]) ++
        (st.sessions.eraseP (fun p => p.1 == sid)).map Prod.snd =
        st.available ++ (u :: (st.sessions.eraseP (fun p => p.1 == sid)).map Prod.snd) := by
      simp [List.append_assoc]
    rw [hassoc]
    exact List.Perm.append_left st.available hperm.symm

theorem poolInv_get {n : Nat} {st : PoolState} (hinv : poolInv n st) (sid : Nat) (now : Int) :
    poolInv n (applyPoolOp st (.get sid now)) := by
  unfold applyPoolOp SMget
  rcases hl : st.sessions.lookup sid with _ | u
  · rcases hav : st.available with _ | ⟨u, rest⟩
    · simpa [hl, hav] using hinv
    · simp only [hl, hav]
      unfold poolInv poolUnits at hinv ⊢
      simp only [List.map_cons]
      refine List.Perm.trans ?_ hinv
      rw [hav]
      exact List.perm_middle.trans (List.Perm.refl _)
  · simpa [hl, poolInv, poolUnits] using hinv

theorem poolInv_cleanup {n : Nat} {st : PoolState} (hinv : poolInv n st) (now : Int) :
    poolInv n (SMcleanup st now) := by
  unfold SMcleanup
  generalize expiredSessions st now = l
  induction l generalizing st with
  | nil => simpa using hinv
  | cons sid l ih => exact ih (poolInv_close hinv sid)

theorem poolInv_step {n : Nat} {st : PoolState} (hinv : poolInv n st) (op : PoolOp) :
    poolInv n (applyPoolOp st op) := by
  cases op with
  | get sid now => exact poolInv_get hinv sid now
  | close sid => exact poolInv_close hinv sid
  | cleanup now => exact poolInv_cleanup hinv now

theorem poolInv_run (n : Nat) (ttl : Int) (ops : List PoolOp) :
    poolInv n (runPool n ttl ops) := by
  unfold runPool
  have hinit : poolInv n (initPool n ttl) := by
    simp [poolInv, poolUnits, initPool]
  generalize initPool n ttl = st at hinit ⊢
  induction ops generalizing st with
  | nil => simpa using hinit
  | cons op ops ih => exact ih _ (poolInv_step hinit op)

/-! ### Websocket text-frame handling (`handle_connection`)

The opaque speech processor is a state of type `σ` with operations that may
raise (`none`); the relevant per-connection locals are the declared sample
rate, the audio buffer and the processor state.  The metrics bookkeeping
(`processed_audio_seconds`, logging) has no effect on these and is elided. -/

structure ProcOps (σ : Type) where
  set_language : Nat → σ → Option σ
  process_chunk : List Int → σ → Option σ
  clear : σ → σ

structure WsSession (σ : Type) where
  sample_rate : Int
  client_buffer : List Int
  proc : σ
deriving DecidableEq

/-- The parsed JSON object of a text frame, reduced to the keys the handler
reads.  `sample_rate = some none` models a present value on which `int(...)`
raises; `metrics_metadata` only feeds the telemetry log. -/
structure CtrlMsg where
  sample_rate : Option (Option Int)
  target_lang : Option Nat
  metrics_metadata : Bool
  end_of_stream : Bool
deriving DecidableEq

inductive TextFrame where
  | unparseable
  | parsed (m : CtrlMsg)
deriving DecidableEq

/-- The `isinstance(message, str)` branch of `handle_connection`: the keys of
the parsed object are processed in source order inside one `try`; any raise is
caught by the surrounding `except` (the Bool records that it was logged) and
the locals keep the values mutated so far.  On a JSON parse failure nothing
has been mutated yet. -/
def handleTextFrame {σ : Type} (ops : ProcOps σ) (st : WsSession σ) :
    TextFrame → WsSession σ × Bool
  | .unparseable => (st, true)
  | .parsed m =>
    let srStep : WsSession σ × Bool :=
      match m.sample_rate with
      | none => (st, false)
      | some none => (st, true)
      | some (some n) => ({ st with sample_rate := n }, false)
    if srStep.2 then srStep else
    let st1 := srStep.1
    let tlStep : WsSession σ × Bool :=
      match m.target_lang with
      | none => (st1, false)
      | some l =>
        match ops.set_language l st1.proc with
        | none => (st1, true)
        | some p => ({ st1 with proc := p }, false)
    if tlStep.2 then tlStep else
    let st2 := tlStep.1
    if m.end_of_stream then
      match st2.client_buffer with
      | [] => ({ st2 with client_buffer := [], proc := ops.clear st2.proc }, false)
      | buf =>
        match ops.process_chunk buf st2.proc with
        | none => (st2, true)
        | some p => ({ st2 with client_buffer := [], proc := ops.clear p }, false)
    else (st2, false)

/-! ### Metric tokenization (`MWERSegmenterBasedQualityScorer._tokenize`)

Strings are lists of characters; the optional `CJSegmenter` is an opaque
`encode` function. -/

/-- Python `str.strip()` (whitespace on both ends). -/
def pyStrip (s : List Char) : List Char :=
  ((s.dropWhile Char.isWhitespace).reverse.dropWhile Char.isWhitespace).reverse

/-- Python `str.split(sep)` for a non-empty separator: non-overlapping
occurrences, left to right. -/
def splitOnSep (sep : List Char) (xs : List Char) : List (List Char) :=
  if hs : sep.length = 0 then [xs]
  else
    if hp : sep <+: xs then
      [] :: splitOnSep sep (xs.drop sep.length)
    else
      match xs with
      | [] => [[]]
      | x :: rest =>
        match splitOnSep sep rest with
        | [] => [[x]]
        | c :: cs => (x :: c) :: cs
termination_by xs.length
decreasing_by
  · obtain ⟨t, ht⟩ := hp
    subst ht
    simp only [List.length_append, List.length_drop]
    omega
  · simp only [List.length_cons]
    omega

/-- The ` ### ` separator used by the mweralign C++ binary. -/
def sepMark : List Char := [' ', '#', '#', '#', ' ']

/-- Body of the `_tokenize` loop for one element of the list. -/
def tokenizeElem (encode : List Char → List (List Char)) (s : List Char) : List Char :=
  if sepMark <:+: s then
    List.intercalate sepMark
      ((splitOnSep sepMark (pyStrip s)).map fun p => List.intercalate [' '] (encode p))
  else if ['\t'] <:+: s then
    List.intercalate sepMark
      ((splitOnSep ['\t'] (pyStrip s)).map fun p => List.intercalate [' '] (encode p))
  else List.intercalate [' '] (encode (pyStrip s))

/-- The `for i in range(len(text))` loop: reads `text[i]` and appends the
tokenized element to the accumulator; no statement writes into `text`. -/
def tokenizeGo (encode : List Char → List (List Char)) (text : List (List Char))
    (i : Nat) (acc : List (List Char)) : List (List Char) :=
  if h : i < text.length then
    tokenizeGo encode text (i + 1) (acc ++ [tokenizeElem encode text[i]])
  else acc
termination_by text.length - i

/-- `MWERSegmenterBasedQualityScorer._tokenize`, returning both the produced
string and the state of the input list after the call. -/
def tokenizeSt (seg : Option (List Char → List (List Char)))
    (text : List (List Char)) : List Char × List (List Char) :=
  match seg with
  | some encode => (List.intercalate ['\n'] (tokenizeGo encode text 0 []), text)
  | none => (List.intercalate ['\n'] text, text)

theorem tokenizeGo_map (encode : List Char → List (List Char))
    (text : List (List Char)) : ∀ (n i : Nat), text.length - i ≤ n →
    ∀ acc, tokenizeGo encode text i acc = acc ++ (text.drop i).map (tokenizeElem encode) := by
  intro n
  induction n with
  | zero =>
    intro i hle acc
    rw [tokenizeGo, dif_neg (by omega)]
    rw [List.drop_eq_nil_of_le (by omega)]
    simp
  | succ n ih =>
    intro i hle acc
    by_cases h : i < text.length
    · rw [tokenizeGo, dif_pos h, ih (i + 1) (by omega)]
      rw [List.append_assoc]
      congr 1
      rw [List.drop_eq_getElem_cons h, List.map_cons, List.singleton_append]
    · rw [tokenizeGo, dif_neg h]
      rw [List.drop_eq_nil_of_le (by omega)]
      simp

/-! ### Claim theorems -/

/-- Claim C2: for a non-empty text history, if the length of the longest
common substring of the previous and new detokenized texts is strictly below
the matching threshold times the new text's length, the Reconciler result has
empty `deleted_tokens` and `deleted_string` and `new_tokens` equal verbatim to
the full generated token sequence. -/
theorem C2_divergence (detok : List (List Char) → List Char) (thr : ℚ)
    (h w : List (List Char)) (hne : h ≠ [])
    (hdiv : ((lcsSize (detok h) (detok w) : Nat) : ℚ) < thr * ((detok w).length : ℚ)) :
    build_incremental_outputs detok thr (some h) w = ⟨w, detok w, [], []⟩ := by
  rw [build_some detok thr hne w]
  rw [if_neg]
  rw [not_le, flm_size]
  exact hdiv

theorem C2_divergence_witness :
    (((lcsSize (concatDetok [['a','b']]) (concatDetok [['x','y']]) : Nat) : ℚ) <
      1 * ((concatDetok [['x','y']]).length : ℚ)) ∧
    build_incremental_outputs concatDetok 1 (some [['a','b']]) [['x','y']] =
      ⟨[['x','y']], concatDetok [['x','y']], [], []⟩ := by
  have hne : ([['a','b']] : List (List Char)) ≠ [] := by simp
  have h0 : lcsSize (concatDetok [['a','b']]) (concatDetok [['x','y']]) = 0 := by decide
  have hlen : ((concatDetok [['x','y']]).length : ℚ) = 2 := by
    norm_num [concatDetok]
  have hdiv : ((lcsSize (concatDetok [['a','b']]) (concatDetok [['x','y']]) : Nat) : ℚ) <
      1 * ((concatDetok [['x','y']]).length : ℚ) := by
    rw [h0, hlen]
    norm_num
  exact ⟨hdiv, C2_divergence concatDetok 1 _ _ hne hdiv⟩

/-- Claim C5: when the new detokenized text extends the previous one by an
appended suffix and the overlap meets the matching threshold, nothing is
deleted and the emitted new string is exactly the appended suffix. -/
theorem C5_continuation (detok : List (List Char) → List Char) (thr : ℚ)
    (h w : List (List Char)) (s : List Char) (hne : h ≠ []) (hpne : detok h ≠ [])
    (hext : detok w = detok h ++ s)
    (hthr : thr * ((detok w).length : ℚ) ≤ ((detok h).length : ℚ)) :
    (build_incremental_outputs detok thr (some h) w).deleted_string = [] ∧
    (build_incremental_outputs detok thr (some h) w).new_string = s := by
  rw [build_some detok thr hne w, hext, flm_append (detok h) s]
  rw [hext] at hthr
  dsimp only
  rw [if_pos hthr]
  constructor
  · dsimp only
    rw [Nat.zero_add, List.drop_length]
  · dsimp only
    rw [Nat.zero_add, List.drop_left]

theorem C5_continuation_witness :
    (concatDetok [['a','b'],['c','d']] = concatDetok [['a','b']] ++ ['c','d']) ∧
    ((1/2 : ℚ) * ((concatDetok [['a','b'],['c','d']]).length : ℚ) ≤
      ((concatDetok [['a','b']]).length : ℚ)) ∧
    (build_incremental_outputs concatDetok (1/2)
        (some [['a','b']]) [['a','b'],['c','d']]).deleted_string = [] ∧
    (build_incremental_outputs concatDetok (1/2)
        (some [['a','b']]) [['a','b'],['c','d']]).new_string = ['c','d'] := by
  have hne : ([['a','b']] : List (List Char)) ≠ [] := by simp
  have hpne : concatDetok [['a','b']] ≠ [] := by decide
  have hext : concatDetok [['a','b'],['c','d']] = concatDetok [['a','b']] ++ ['c','d'] := rfl
  have hthr : (1/2 : ℚ) * ((concatDetok [['a','b'],['c','d']]).length : ℚ) ≤
      ((concatDetok [['a','b']]).length : ℚ) := by
    norm_num [concatDetok]
  obtain ⟨h1, h2⟩ := C5_continuation concatDetok (1/2) [['a','b']] [['a','b'],['c','d']]
    ['c','d'] hne hpne hext hthr
  exact ⟨hext, hthr, h1, h2⟩

/-- Claim C4 counterexample: on `previousText = "xy"`, `newText = "yx"` the
code's match (difflib order: earliest in the FIRST string) is the block at
`(a, b) = (0, 1)`, although an equally long common substring starts at
position `0` of `newText` (witnessed by the common run at offsets `(1, 0)`),
which the claim's tie order (earliest in `newText` first) would have chosen,
as the spec-modelled chooser shows. -/
theorem C4_counterexample :
    find_longest_match ['x','y'] ['y','x'] = ⟨0, 1, 1⟩ ∧
    specLongestMatch ['x','y'] ['y','x'] = ⟨1, 0, 1⟩ ∧
    matchLen (List.drop 1 ['x','y']) (List.drop 0 ['y','x']) = 1 := by
  refine ⟨by decide, by decide, by decide⟩

/-- Claim C4 (amended): whenever `newText` is shorter than 200 characters —
so difflib's autojunk heuristic is inert and the model is the real matcher —
the match used by the Reconciler is a genuine longest contiguous common
substring of the two texts, but ties are broken by the earliest starting
position in `previousText` (the first matcher argument), and among those by
the earliest starting position in `newText`.  For `newText` of 200 or more
characters autojunk can make the code use a block that is not even maximal. -/
theorem C4_longest_match_amended (a b : List Char) (hb : b.length < 200) :
    (find_longest_match a b).a + (find_longest_match a b).size ≤ a.length ∧
    (find_longest_match a b).b + (find_longest_match a b).size ≤ b.length ∧
    (a.drop (find_longest_match a b).a).take (find_longest_match a b).size =
      (b.drop (find_longest_match a b).b).take (find_longest_match a b).size ∧
    (∀ i j k, i + k ≤ a.length → j + k ≤ b.length →
      (a.drop i).take k = (b.drop j).take k → k ≤ (find_longest_match a b).size) ∧
    (∀ i j, i ≤ a.length → j ≤ b.length →
      (i < (find_longest_match a b).a ∨
        (i = (find_longest_match a b).a ∧ j < (find_longest_match a b).b)) →
      matchLen (a.drop i) (b.drop j) < (find_longest_match a b).size) :=
  ⟨flm_a_size_le a b, flm_b_size_le a b, flm_common a b,
   fun _ _ _ hi hj hc => flm_max a b hi hj hc,
   fun _ _ hi hj hlt => flm_first a b hi hj hlt⟩

theorem C4_longest_match_amended_witness :
    (['y','x'] : List Char).length < 200 ∧
    1 ≤ (find_longest_match ['x','y'] ['y','x']).size ∧
    matchLen (List.drop 0 ['x','y']) (List.drop 0 ['y','x']) <
      (find_longest_match ['x','y'] ['y','x']).size := by
  refine ⟨by decide, ?_, ?_⟩
  · exact (C4_longest_match_amended ['x','y'] ['y','x'] (by decide)).2.2.2.1 1 0 1
      (by decide) (by decide) (by decide)
  · exact (C4_longest_match_amended ['x','y'] ['y','x'] (by decide)).2.2.2.2 0 0
      (by decide) (by decide) (by decide)

/-- Claim C3 counterexample: for candidate `"x"` and tokens `["a", "b"]`
(concatenating detokenizer), the one-token suffix `"b"` already fails the
ends-with test, yet the function returns the FULL token list (`tokens[0:]`),
not any smaller previous suffix; the returned list's rendering `"ab"` neither
ends with the candidate nor is a suffix of it. -/
theorem C3_counterexample :
    get_ending_tokens_for_string concatDetok ['x'] [['a'],['b']] = [['a'],['b']] ∧
    ¬ (concatDetok (List.drop 1 [['a'],['b']]) <:+ ['x']) ∧
    ¬ (['x'] <:+ concatDetok [['a'],['b']]) ∧
    ¬ (concatDetok [['a'],['b']] <:+ ['x']) ∧
    [['a'],['b']] ≠ ([] : List (List Char)) := by
  refine ⟨by decide, by decide, by decide, by decide, by decide⟩

/-- Claim C3 (amended): the loop grows a trailing token suffix while the
candidate text ends with its rendering, checking only `1 ≤ i < len(tokens)`;
if every checked suffix passes, the full token list is returned; at the first
failing `i` the Python slice `tokens[-i+1:]` is returned, which is the last
`i-1` tokens for `i ≥ 2` but the FULL token list for `i = 1`. -/
theorem C3_ending_tokens_amended (detok : List (List Char) → List Char)
    (s : List Char) (tokens : List (List Char)) :
    ((∀ j, 1 ≤ j → j < tokens.length →
        detok (tokens.drop (tokens.length - j)) <:+ s) →
      get_ending_tokens_for_string detok s tokens = tokens) ∧
    (∀ i0, 1 ≤ i0 → i0 < tokens.length →
      ¬ (detok (tokens.drop (tokens.length - i0)) <:+ s) →
      (∀ j, 1 ≤ j → j < i0 → detok (tokens.drop (tokens.length - j)) <:+ s) →
      get_ending_tokens_for_string detok s tokens =
        if i0 = 1 then tokens else tokens.drop (tokens.length - (i0 - 1))) := by
  constructor
  · intro hok
    exact getGo_ok detok s tokens tokens.length 1 hok
  · intro i0 h1 hlt hbad hok
    exact getGo_break detok s tokens tokens.length i0 1 (by omega) le_rfl h1 hlt hbad hok

theorem C3_ending_tokens_amended_witness :
    ¬ (concatDetok (List.drop 1 [['a'],['b']]) <:+ ['x']) ∧
    get_ending_tokens_for_string concatDetok ['x'] [['a'],['b']] = [['a'],['b']] := by
  have hbad : ¬ (concatDetok ((([['a'],['b']] : List (List Char))).drop
      ([['a'],['b']].length - 1)) <:+ ['x']) := by decide
  have h := (C3_ending_tokens_amended concatDetok ['x'] [['a'],['b']]).2 1 le_rfl
    (by decide) hbad (fun j hj1 hj2 => absurd (lt_of_le_of_lt hj1 hj2) (by omega))
  exact ⟨by decide, by simpa using h⟩

/-- Claim C1 counterexample: feeding the windows `[["ab"], ["xy"]]` (threshold
`1`, concatenating detokenizer) in order and applying each emitted delta, the
transcript after the second step is `"abxy"`: the second window diverges, so
nothing is deleted but the full new text is appended, and the transcript does
not equal that step's full detokenized text `"xy"`. -/
theorem C1_roundtrip_counterexample :
    (runWindows concatDetok 1 [[['a','b']], [['x','y']]]).transcript = ['a','b','x','y'] ∧
    concatDetok [['x','y']] = ['x','y'] ∧
    (['a','b','x','y'] : List Char) ≠ ['x','y'] := by
  have hflm : find_longest_match (concatDetok [['a','b']]) (concatDetok [['x','y']]) =
      ⟨0, 0, 0⟩ := by decide
  have hb2 : build_incremental_outputs concatDetok 1 (some [['a','b']]) [['x','y']] =
      ⟨[['x','y']], concatDetok [['x','y']], [], []⟩ := by
    rw [build_some concatDetok 1 (by simp) [['x','y']], hflm]
    rw [if_neg]
    dsimp only
    norm_num [concatDetok]
  refine ⟨?_, rfl, by decide⟩
  show (reconStep concatDetok 1 (reconStep concatDetok 1 ⟨none, []⟩ [['a','b']])
      [['x','y']]).transcript = _
  have hs1 : reconStep concatDetok 1 ⟨none, []⟩ [['a','b']] =
      ⟨some [['a','b']], ['a','b']⟩ := rfl
  rw [hs1]
  unfold reconStep
  rw [hb2]
  decide

/-- Claim C1 (amended): the delta-application round trip holds for window
sequences in which every consecutive pair renders a new text shorter than 200
characters (so difflib's autojunk heuristic is inert and the modelled matcher
is the real one), takes the match branch, and leaves the text up to the end
of the match unchanged between the previous and new renderings (in particular
short pure continuations); the transcript after the last step then equals the
last window's full detokenized text.  (In the divergence branch the full new
text is appended with nothing deleted, in the match branch a changed prefix
is never repaired, and on renderings of 200+ characters autojunk can force
divergence even on heavily overlapping windows, so the round trip can fail
otherwise, as the counterexample shows.) -/
theorem C1_roundtrip_amended (detok : List (List Char) → List Char) (thr : ℚ)
    (w0 : List (List Char)) (rest : List (List (List Char)))
    (hchain : List.Chain (alignedPair detok thr) w0 rest) :
    (runWindows detok thr (w0 :: rest)).transcript = detok (lastWindow w0 rest) := by
  have hstep : reconStep detok thr ⟨none, []⟩ w0 = ⟨some w0, detok w0⟩ := by
    unfold reconStep
    rw [build_none]
    unfold applyDelta
    simp
  show (rest.foldl (reconStep detok thr) (reconStep detok thr ⟨none, []⟩ w0)).transcript = _
  rw [hstep, runAligned detok thr rest w0 hchain]

theorem C1_roundtrip_amended_witness :
    List.Chain (alignedPair concatDetok (1/2)) [['a','b']] [[['a','b'],['c','d']]] ∧
    (runWindows concatDetok (1/2) [[['a','b']], [['a','b'],['c','d']]]).transcript =
      concatDetok (lastWindow [['a','b']] [[['a','b'],['c','d']]]) := by
  have hflm : find_longest_match (concatDetok [['a','b']])
      (concatDetok [['a','b'],['c','d']]) = ⟨0, 0, 2⟩ := by decide
  have hchain : List.Chain (alignedPair concatDetok (1/2)) [['a','b']]
      [[['a','b'],['c','d']]] := by
    refine List.Chain.cons ⟨by simp, by decide, ?_, ?_⟩ List.Chain.nil
    · rw [hflm]
      norm_num [concatDetok]
    · rw [hflm]
      decide
  exact ⟨hchain, C1_roundtrip_amended concatDetok (1/2) _ _ hchain⟩

/-- Claim C6: in every pool state reachable from the initial state by any
sequence of get, close and reaper-cleanup operations, the units are exactly
the `n` units built at construction — each in exactly one of the available
queue or exactly one session record (the concatenation is a permutation of
the distinct initial units) — and the number of available units plus the
number of active sessions equals the pool capacity. -/
theorem C6_pool_conservation (n : Nat) (ttl : Int) (ops : List PoolOp) :
    (poolUnits (runPool n ttl ops)).Perm (List.range n) ∧
    (runPool n ttl ops).available.length + (runPool n ttl ops).sessions.length = n := by
  have h := poolInv_run n ttl ops
  refine ⟨h, ?_⟩
  have hlen := h.length_eq
  simp only [poolUnits, List.length_append, List.length_map, List.length_range] at hlen
  exact hlen

/-- Claim C7: a checkout for a session id that is already mapped returns the
very same unit, leaves the available queue and the session map untouched, and
refreshes that session's `last_access` to the current time. -/
theorem C7_idempotent_checkout (st : PoolState) (sid : Nat) (now : Int) (u : Nat)
    (hs : st.sessions.lookup sid = some u) :
    SMget st sid now = some ({ st with last_access := setKey st.last_access sid now }, u) ∧
    ({ st with last_access := setKey st.last_access sid now }).available = st.available ∧
    ({ st with last_access := setKey st.last_access sid now }).sessions = st.sessions ∧
    (setKey st.last_access sid now).lookup sid = some now := by
  refine ⟨?_, rfl, rfl, ?_⟩
  · unfold SMget
    rw [hs]
  · unfold setKey
    simp [List.lookup]

theorem C7_idempotent_checkout_witness :
    (PoolState.mk [(5, 0)] [] 1 10 []).sessions.lookup 5 = some 0 ∧
    SMget (PoolState.mk [(5, 0)] [] 1 10 []) 5 3 =
      some ({ PoolState.mk [(5, 0)] [] 1 10 [] with
                last_access := setKey [] 5 3 }, 0) := by
  have hs : (PoolState.mk [(5, 0)] [] 1 10 []).sessions.lookup 5 = some 0 := rfl
  exact ⟨hs, (C7_idempotent_checkout (PoolState.mk [(5, 0)] [] 1 10 []) 5 3 0 hs).1⟩

/-- Claim C8: a checkout for a session id that is NOT mapped fails exactly
when the available queue is empty, and the failing call leaves the whole
state — session map, last-access map and queue — unchanged. -/
theorem C8_pool_exhaustion (st : PoolState) (sid : Nat) (now : Int)
    (hs : st.sessions.lookup sid = none) :
    (SMget st sid now = none ↔ st.available = []) ∧
    (st.available = [] → applyPoolOp st (.get sid now) = st) := by
  rcases hav : st.available with _ | ⟨u, rest⟩
  · have hnone : SMget st sid now = none := by
      unfold SMget
      rw [hs, hav]
    refine ⟨⟨fun _ => rfl, fun _ => hnone⟩, fun _ => ?_⟩
    simp only [applyPoolOp]
    rw [hnone]
  · have hsome : (SMget st sid now).isSome = true := by
      unfold SMget
      rw [hs, hav]
      rfl
    constructor
    · constructor
      · intro hcontra
        rw [hcontra] at hsome
        exact absurd hsome (by simp)
      · intro hcontra
        exact absurd hcontra (by simp)
    · intro hcontra
      exact absurd hcontra (by simp)

theorem C8_pool_exhaustion_witness :
    (PoolState.mk [] [] 0 10 []).sessions.lookup 7 = none ∧
    SMget (PoolState.mk [] [] 0 10 []) 7 0 = none ∧
    applyPoolOp (PoolState.mk [] [] 0 10 []) (.get 7 0) = PoolState.mk [] [] 0 10 [] := by
  have hs : (PoolState.mk [] [] 0 10 []).sessions.lookup 7 = none := rfl
  obtain ⟨hiff, hunch⟩ := C8_pool_exhaustion (PoolState.mk [] [] 0 10 []) 7 0 hs
  exact ⟨hs, hiff.mpr rfl, hunch rfl⟩

/-- Claim C9 counterexample: a parsable frame carrying both a new sample rate
and a target language whose `set_language` raises is caught and logged
(`true`), yet the declared sample rate HAS changed — partial mutations made
before the raise persist, so the session state is not unchanged for every
frame whose processing raises. -/
theorem C9_counterexample :
    (handleTextFrame (ProcOps.mk (fun _ _ => none) (fun _ p => some p) id)
        (WsSession.mk 16000 [] ())
        (.parsed ⟨some (some 8000), some 0, false, false⟩)).2 = true ∧
    (handleTextFrame (ProcOps.mk (fun _ _ => none) (fun _ p => some p) id)
        (WsSession.mk 16000 [] ())
        (.parsed ⟨some (some 8000), some 0, false, false⟩)).1.sample_rate = 8000 ∧
    (WsSession.mk 16000 ([] : List Int) ()).sample_rate ≠ 8000 := by
  refine ⟨rfl, rfl, by decide⟩

/-- Claim C9 (amended): when the exception precedes any mutation — an
unparseable text frame, or a frame whose `sample_rate` value fails integer
conversion as the first processed key — the error is logged (`true`), the
handler returns and the connection continues, and the session state is
exactly unchanged.  In general an exception only skips the REST of the
frame's processing: mutations already performed by earlier keys persist. -/
theorem C9_malformed_amended {σ : Type} (ops : ProcOps σ) (st : WsSession σ)
    (tl : Option Nat) (mm eos : Bool) :
    handleTextFrame ops st .unparseable = (st, true) ∧
    handleTextFrame ops st (.parsed ⟨some none, tl, mm, eos⟩) = (st, true) :=
  ⟨rfl, rfl⟩

/-- Claim C10: `_tokenize` returns the newline-joined elementwise tokenized
text (with or without a configured segmenter) and the input list after the
call is the very list passed in — no in-place modification. -/
theorem C10_tokenize_no_inplace (seg : Option (List Char → List (List Char)))
    (text : List (List Char)) :
    (tokenizeSt seg text).2 = text ∧
    (tokenizeSt seg text).1 =
      (match seg with
       | some encode => List.intercalate ['\n'] (text.map (tokenizeElem encode))
       | none => List.intercalate ['\n'] text) := by
  cases seg with
  | none => exact ⟨rfl, rfl⟩
  | some encode =>
    refine ⟨rfl, ?_⟩
    show List.intercalate ['\n'] (tokenizeGo encode text 0 []) = _
    rw [tokenizeGo_map encode text text.length 0 (by omega) []]
    simp

end Simulstream
